import Mathlib

/-!
Verification development for `scraper.py` (single-page word/tag frequency
reporter).  The Python source is shallowly embedded: the HTML document tree
becomes an inductive type, `collections.Counter` becomes an insertion-ordered
association list, `Counter.most_common` becomes a stable insertion sort by
count (descending), the regex `[A-Za-z]{2,}` becomes a maximal-run scanner,
and `BeautifulSoup.decompose` becomes a pure tree-pruning function whose
effect on the tree is returned explicitly.
-/

namespace Scraper

/-! ### Frequency tables: `collections.Counter`

`Counter(keys)` builds a dict mapping each key to its multiplicity; dict
iteration order is insertion order, i.e. order of first appearance of each
key.  We model the dict as an association list built by a left fold: `bump`
is one `counts[k] += 1` step (increment in place if present, else append
with count 1 at the end, exactly the dict insertion-order behaviour). -/

def bump : List (String × Nat) → String → List (String × Nat)
  | [], k => [(k, 1)]
  | (a, c) :: t, k => if a = k then (a, c + 1) :: t else (a, c) :: bump t k

/-- `Counter(ks).items()` in iteration (= first-seen) order. -/
def counterItems (ks : List String) : List (String × Nat) :=
  ks.foldl bump []

/-- Keys of an association list, in order. -/
def keysOf (l : List (String × Nat)) : List String := l.map Prod.fst

/-- Lookup with default 0, like `Counter.__getitem__`. -/
def getCount : List (String × Nat) → String → Nat
  | [], _ => 0
  | (a, c) :: t, k => if a = k then c else getCount t k

/-- Sum of the counts of a frequency list. -/
def sumCounts (l : List (String × Nat)) : Nat := (l.map Prod.snd).sum

/-- The distinct keys of `ks` in order of first appearance (spec-side
characterisation of dict key order). -/
def firstSeenKeys : List String → List String
  | [] => []
  | k :: ks => k :: firstSeenKeys (ks.filter (fun j => decide (j ≠ k)))
termination_by l => l.length
decreasing_by
  simp only [List.length_cons]
  exact Nat.lt_succ_of_le (List.length_filter_le _ _)

/-- Comparison used by `most_common`: sort key is the count, descending
(`sorted(..., key=itemgetter(1), reverse=True)`). -/
def cntGe (a b : String × Nat) : Prop := b.2 ≤ a.2

instance : DecidableRel cntGe := fun a b => inferInstanceAs (Decidable (b.2 ≤ a.2))

instance : IsTotal (String × Nat) cntGe := ⟨fun a b => Nat.le_total b.2 a.2⟩

instance : IsTrans (String × Nat) cntGe := ⟨fun _ _ _ h1 h2 => Nat.le_trans h2 h1⟩

/-- `Counter.most_common()` with no argument: a stable sort of the items by
count descending.  CPython's `sorted` is stable and `reverse=True` preserves
stability, so the result is the unique count-descending ordering in which
equal-count items keep their first-seen relative order; `insertionSort` with
`cntGe` computes exactly that ordering. -/
def mostCommon (l : List (String × Nat)) : List (String × Nat) :=
  List.insertionSort cntGe l

/-- `top_n_words(tokens, n) = Counter(tokens).most_common(n)`.
`most_common(n)` is `heapq.nlargest(n, items, key=itemgetter(1))`, which is
documented (and implemented, via decoration with a strictly decreasing tie
index) to equal `sorted(items, key=..., reverse=True)[:n]`; for `n <= 0` it
returns `[]`.  With `Int.toNat` sending negative numbers to 0, `take n.toNat`
captures both behaviours. -/
def top_n_words (tokens : List String) (n : Int) : List (String × Nat) :=
  (mostCommon (counterItems tokens)).take n.toNat

/-! ### Tokenizer

`TOKEN_RE = re.compile(r"[A-Za-z]{2,}")`; `tokenise` lower-cases each match
and drops stop-words.  `finditer` scans left to right and the greedy
quantifier makes each match a maximal run of ASCII letters, so the matches
are exactly the maximal alphabetic runs of length at least 2. -/

/-- The character class `[A-Za-z]`. -/
def isAlphaChar (c : Char) : Bool :=
  (65 ≤ c.toNat && c.toNat ≤ 90) || (97 ≤ c.toNat && c.toNat ≤ 122)

/-- Maximal runs of `[A-Za-z]` characters, left to right, all lengths
(the length-2 threshold of the regex is applied by `tokenise`).  `acc` holds
the reversed current partial run. -/
def alphaRunsAux : List Char → List Char → List (List Char)
  | [], acc => if acc.isEmpty then [] else [acc.reverse]
  | c :: cs, acc =>
      if isAlphaChar c then alphaRunsAux cs (c :: acc)
      else if acc.isEmpty then alphaRunsAux cs []
      else acc.reverse :: alphaRunsAux cs []

/-- All maximal alphabetic runs of a string. -/
def alphaRuns (s : String) : List (List Char) := alphaRunsAux s.data []

/-- `STOP_WORDS` from the source, verbatim. -/
def STOP_WORDS : List String :=
  ["a", "an", "and", "are", "as", "at", "be", "by", "for", "from", "has",
   "he", "in", "is", "it", "its", "of", "on", "that", "the", "to", "was",
   "were", "with"]

/-- `tokenise(text)`: regex matches (maximal runs, length at least 2),
lower-cased (`str.lower` restricted to ASCII letters agrees with
`Char.toLower`), then stop-words dropped. -/
def tokenise (text : String) : List String :=
  (((alphaRuns text).filter (fun r => decide (2 ≤ r.length))).map
      (fun r => String.mk (r.map Char.toLower))).filter
    (fun t => decide (t ∉ STOP_WORDS))

/-! ### The document tree

A parsed HTML document is an ordered forest of nodes.  An element carries a
tag name and children; a string node is either an exact `NavigableString`
(text) or a `Comment` (bs4's `Comment` is a subclass of `NavigableString`).
The soup object itself is modelled as the forest of its top-level children.
Tag names are stored as produced by the parser (the `lxml` HTML parser
lower-cases them; the embedding does not assume this unless stated). -/

inductive Node where
  | elem (name : String) (children : List Node)
  | text (s : String)
  | comment (s : String)

/-- The four non-visible tag names removed by `visible_text_from_soup`:
`soup(["script", "style", "noscript", "template"])`. -/
def NONVISIBLE : List String := ["script", "style", "noscript", "template"]

/-- Effect of the `decompose` loop: every element whose name is in
`NONVISIBLE` is removed together with its whole subtree; all other nodes are
kept, in order. -/
def pruneList : List Node → List Node
  | [] => []
  | Node.text s :: rest => Node.text s :: pruneList rest
  | Node.comment s :: rest => Node.comment s :: pruneList rest
  | Node.elem nm cs :: rest =>
      if nm ∈ NONVISIBLE then pruneList rest
      else Node.elem nm (pruneList cs) :: pruneList rest

/-- True when no element of the forest (at any depth) has a non-visible tag
name. -/
def bannedFree : List Node → Bool
  | [] => true
  | Node.text _ :: rest => bannedFree rest
  | Node.comment _ :: rest => bannedFree rest
  | Node.elem nm cs :: rest =>
      if nm ∈ NONVISIBLE then false else bannedFree cs && bannedFree rest

/-- Python `str.strip()` (restricted to ASCII whitespace, which is all the
claims exercise): drop leading and trailing whitespace characters. -/
def isPySpace (c : Char) : Bool :=
  c.toNat = 32 || c.toNat = 9 || c.toNat = 10 || c.toNat = 13 ||
    c.toNat = 11 || c.toNat = 12

def pyStrip (s : String) : String :=
  String.mk (((s.data.dropWhile isPySpace).reverse.dropWhile isPySpace).reverse)

/-- `html.unescape`, modelled for the predefined XML entities; other input is
returned unchanged.  No claim proved below depends on the entity table. -/
def unescapeChars : List Char → List Char
  | [] => []
  | '&' :: 'a' :: 'm' :: 'p' :: ';' :: rest => '&' :: unescapeChars rest
  | '&' :: 'l' :: 't' :: ';' :: rest => '<' :: unescapeChars rest
  | '&' :: 'g' :: 't' :: ';' :: rest => '>' :: unescapeChars rest
  | c :: rest => c :: unescapeChars rest

def pyUnescape (s : String) : String := String.mk (unescapeChars s.data)

/-- Provenance of a string yielded by the tree iteration: whether it came
from a text node (an exact `NavigableString` in the tree) or from a comment
node (a `Comment`, subclass of `NavigableString`).  This is the node the
string originated from, not the runtime class of the yielded value — see
`yieldedClass`. -/
inductive StrKind where
  | plainString
  | commentString
deriving DecidableEq

/-- Runtime class of a Python value as seen by the generator's `isinstance`
checks.  The bs4 class hierarchy: `Comment` < `NavigableString` < `str`,
and `Tag` is unrelated to `str`. -/
inductive PyClass where
  | pyStr
  | navString
  | pyComment
  | pyTag
deriving DecidableEq

/-- `isinstance(x, NavigableString)`: true for `NavigableString` itself and
for its subclass `Comment`; false for a plain `str` (a superclass instance
is not an instance of the subclass) and for `Tag`. -/
def isinstanceNavigableString : PyClass → Bool
  | PyClass.navString => true
  | PyClass.pyComment => true
  | _ => false

/-- `isinstance(x, Tag)`. -/
def isinstanceTag : PyClass → Bool
  | PyClass.pyTag => true
  | _ => false

/-- The filter in the source's `gen()`, as a function of the runtime class
of the iterated element:
`isinstance(element, NavigableString) and not isinstance(element, Tag)`. -/
def genFilter (c : PyClass) : Bool :=
  isinstanceNavigableString c && !(isinstanceTag c)

/-- The runtime class of every value yielded by `stripped_strings`:
`_all_strings(strip=True)` yields `descendant.strip()`, and a `str` method
invoked on a `str` subclass (`NavigableString`, `Comment`) returns a plain
`str`, never the subclass.  So regardless of the provenance of the string,
the value reaching the generator's `isinstance` checks is a plain `str`. -/
def yieldedClass : StrKind → PyClass
  | _ => PyClass.pyStr

/-- `soup.stripped_strings`: document-order (pre-order, depth-first)
iteration over string nodes, each stripped, empty results skipped.
`withComments` selects the external collaborator's behaviour: bs4 before
4.9 yields every `NavigableString` descendant including comments
(`withComments = true`); bs4 4.9 and later restricts iteration to
"interesting" string types and skips comments (`withComments = false`).
The repository does not pin a bs4 version, so both are covered. -/
def strippedStrings (withComments : Bool) : List Node → List (StrKind × String)
  | [] => []
  | Node.text s :: rest =>
      (if pyStrip s = "" then [] else [(StrKind.plainString, pyStrip s)]) ++
        strippedStrings withComments rest
  | Node.comment s :: rest =>
      (if withComments = true ∧ pyStrip s ≠ ""
        then [(StrKind.commentString, pyStrip s)] else []) ++
        strippedStrings withComments rest
  | Node.elem _ cs :: rest =>
      strippedStrings withComments cs ++ strippedStrings withComments rest

/-- `visible_text_from_soup(soup)`.  The `decompose` loop mutates the soup in
place; the returned pair makes that explicit: the first component is the tree
as left behind by the call, the second is the extracted text
(`" ".join(unescape(e) for e in soup.stripped_strings if <genFilter>)`,
run on the already-decomposed tree).  The filter is applied to the runtime
class of each yielded value, which is always a plain `str` (see
`yieldedClass`), so the generator in fact yields nothing and the text
component is always empty — proved below, not baked in. -/
def visible_text_from_soup (withComments : Bool) (soup : List Node) :
    List Node × String :=
  let pruned := pruneList soup
  (pruned,
    String.intercalate " "
      (((strippedStrings withComments pruned).filter
          (fun p => genFilter (yieldedClass p.1))).map
        (fun p => pyUnescape p.2)))

/-- Tag names of all elements of the forest, in document (pre-order)
order: `soup.find_all(True)` followed by `.name`. -/
def allElemNames : List Node → List String
  | [] => []
  | Node.text _ :: rest => allElemNames rest
  | Node.comment _ :: rest => allElemNames rest
  | Node.elem nm cs :: rest => nm :: (allElemNames cs ++ allElemNames rest)

/-- Python `str.lower` restricted to ASCII (tag names are ASCII). -/
def strLower (s : String) : String := String.mk (s.data.map Char.toLower)

/-- `tag_frequencies(soup) = Counter(tag.name.lower() for tag in
soup.find_all(True)).most_common()`. -/
def tag_frequencies (soup : List Node) : List (String × Nat) :=
  mostCommon (counterItems ((allElemNames soup).map strLower))

/-- The core of `main` after the soup is built (lines 204-210 of the source):
tag counting runs first on the given tree, then `visible_text_from_soup`
(which decomposes the tree), then tokenisation and `top_n_words` with the
caller-supplied `--top` value, passed through unchanged. -/
def mainCore (withComments : Bool) (soup : List Node) (top : Int) :
    List (String × Nat) × List (String × Nat) :=
  let tagCounts := tag_frequencies soup
  let extracted := visible_text_from_soup withComments soup
  let tokens := tokenise extracted.2
  (tagCounts, top_n_words tokens top)

/-! ### The CLI layer (`parse_args`)

`argparse` fragment for this parser: one positional `url`, one option
`-t`/`--top` with `type=int` (default 100).  Because no registered option
string looks like a negative number, `argparse` classifies a token matching
`-<digits>` as a value/positional, not as an option; unknown option-like
tokens and surplus positionals are errors (`None` here).  Prefix
abbreviations of `--top` and the `--` separator are not modelled; no claim
depends on them. -/

structure Args where
  url : String
  top : Int
deriving DecidableEq

/-- Digits of a decimal numeral, or `none` if empty or non-digit. -/
def digitsVal (ds : List Char) : Option Nat :=
  if ds.isEmpty then none
  else
    ds.foldl
      (fun acc? c => acc?.bind
        (fun acc =>
          if 48 ≤ c.toNat ∧ c.toNat ≤ 57 then some (acc * 10 + (c.toNat - 48))
          else none))
      (some 0)

/-- Python `int(s)` on an optionally signed decimal numeral (whitespace and
underscore allowances are not modelled). -/
def parsePyInt (s : String) : Option Int :=
  match s.data with
  | '-' :: ds => (digitsVal ds).map (fun n => -(n : Int))
  | '+' :: ds => (digitsVal ds).map (fun n => (n : Int))
  | ds => (digitsVal ds).map (fun n => (n : Int))

/-- `argparse`'s negative-number matcher `^-\d+$` (the decimal variant is
irrelevant for `type=int`). -/
def looksLikeNegNum (s : String) : Bool :=
  match s.data with
  | '-' :: ds => !ds.isEmpty && ds.all (fun c => 48 ≤ c.toNat && c.toNat ≤ 57)
  | _ => false

/-- `String.startsWith`, phrased over the character lists (identical for the
ASCII option prefixes involved). -/
def strStartsWith (s pre : String) : Bool := pre.data.isPrefixOf s.data

/-- Drop the first `n` characters (`str[n:]` on the ASCII option tokens
involved). -/
def strDropChars (s : String) (n : Nat) : String := String.mk (s.data.drop n)

/-- Whether `argparse` treats a token as an option for this parser: starts
with `-`, is not bare `-`, and does not look like a negative number (the
parser has no negative-number-like option strings). -/
def isOptionToken (s : String) : Bool :=
  strStartsWith s "-" && !(s == "-") && !looksLikeNegNum s

def parseArgsGo : Option String → Int → List String → Option Args
  | url?, top, [] => url?.map (fun u => ⟨u, top⟩)
  | url?, top, a :: rest =>
      if a == "--top" || a == "-t" then
        match rest with
        | [] => none
        | v :: rest2 => (parsePyInt v).bind (fun n => parseArgsGo url? n rest2)
      else if strStartsWith a "--top=" then
        (parsePyInt (strDropChars a 6)).bind (fun n => parseArgsGo url? n rest)
      else if strStartsWith a "-t" && !(a == "-t") && !(strStartsWith a "--") then
        (parsePyInt (strDropChars a 2)).bind (fun n => parseArgsGo url? n rest)
      else if isOptionToken a then none
      else
        match url? with
        | none => parseArgsGo (some a) top rest
        | some _ => none
termination_by structural _ _ l => l

/-- `parse_args(argv)`: `None` models an `argparse` error exit. -/
def parse_args (argv : List String) : Option Args := parseArgsGo none 100 argv

/-! ### Spec-side definitions (for refinement comparisons) -/

/-- Spec-side visible-string collection: the same traversal as
`strippedStrings`, but skipping every subtree rooted at a non-visible
element during collection instead of pruning the tree first.  This is the
spec's description "an element plus all descendants is skipped". -/
def specCollectSkipping (withComments : Bool) : List Node → List (StrKind × String)
  | [] => []
  | Node.text s :: rest =>
      (if pyStrip s = "" then [] else [(StrKind.plainString, pyStrip s)]) ++
        specCollectSkipping withComments rest
  | Node.comment s :: rest =>
      (if withComments = true ∧ pyStrip s ≠ ""
        then [(StrKind.commentString, pyStrip s)] else []) ++
        specCollectSkipping withComments rest
  | Node.elem nm cs :: rest =>
      (if nm ∈ NONVISIBLE then [] else specCollectSkipping withComments cs) ++
        specCollectSkipping withComments rest

/-- Whether the forest contains (at any depth) a comment node with exactly
this raw text. -/
def hasCommentWithText : List Node → String → Bool
  | [], _ => false
  | Node.text _ :: rest, s => hasCommentWithText rest s
  | Node.comment c :: rest, s => c == s || hasCommentWithText rest s
  | Node.elem _ cs :: rest, s => hasCommentWithText cs s || hasCommentWithText rest s

/-- Spec-side decomposition witnessing that a list of character runs is
exactly the list of maximal `[A-Za-z]` runs of a string, in left-to-right
order: before each run sits non-alphabetic padding, each run is a nonempty
all-alphabetic block, and the remainder after a run starts with a
non-alphabetic character (or is exhausted), so no run can be extended. -/
inductive RunsDecomp : List Char → List (List Char) → Prop where
  | allSep : ∀ {s : List Char}, (∀ c ∈ s, isAlphaChar c = false) → RunsDecomp s []
  | run : ∀ {lead r rest : List Char} {rs : List (List Char)},
      (∀ c ∈ lead, isAlphaChar c = false) → r ≠ [] →
      (∀ c ∈ r, isAlphaChar c = true) →
      (∀ c, rest.head? = some c → isAlphaChar c = false) →
      RunsDecomp rest rs → RunsDecomp (lead ++ (r ++ rest)) (r :: rs)

/-! ### Lemmas: the frequency table -/

theorem getCount_bump_self (l : List (String × Nat)) (k : String) :
    getCount (bump l k) k = getCount l k + 1 := by
  induction l with
  | nil => simp [bump, getCount]
  | cons p t ih =>
      obtain ⟨a, c⟩ := p
      by_cases h : a = k
      · subst h; simp [bump, getCount]
      · simp [bump, getCount, h, ih]

theorem getCount_bump_other (l : List (String × Nat)) (k j : String)
    (hjk : j ≠ k) : getCount (bump l k) j = getCount l j := by
  induction l with
  | nil => simp [bump, getCount, Ne.symm hjk]
  | cons p t ih =>
      obtain ⟨a, c⟩ := p
      by_cases h : a = k
      · subst h; simp [bump, getCount, Ne.symm hjk]
      · by_cases h2 : a = j
        · subst h2; simp [bump, getCount, h]
        · simp [bump, getCount, h, h2, ih]

theorem sumCounts_bump (l : List (String × Nat)) (k : String) :
    sumCounts (bump l k) = sumCounts l + 1 := by
  induction l with
  | nil => simp [bump, sumCounts]
  | cons p t ih =>
      obtain ⟨a, c⟩ := p
      by_cases h : a = k
      · subst h; simp [bump, sumCounts]; omega
      · simp [bump, sumCounts, h] at ih ⊢; omega

theorem keysOf_bump_mem (l : List (String × Nat)) (k : String)
    (h : k ∈ keysOf l) : keysOf (bump l k) = keysOf l := by
  induction l with
  | nil => simp [keysOf] at h
  | cons p t ih =>
      obtain ⟨a, c⟩ := p
      by_cases hak : a = k
      · subst hak; simp [bump, keysOf]
      · have hkt : k ∈ keysOf t := by
          simp [keysOf] at h
          rcases h with h | h
          · exact absurd h.symm hak
          · simpa [keysOf] using h
        have hrec := ih hkt
        simp [bump, keysOf, hak] at hrec ⊢
        exact hrec

theorem keysOf_bump_notMem (l : List (String × Nat)) (k : String)
    (h : k ∉ keysOf l) : keysOf (bump l k) = keysOf l ++ [k] := by
  induction l with
  | nil => simp [bump, keysOf]
  | cons p t ih =>
      obtain ⟨a, c⟩ := p
      have hak : a ≠ k := by
        intro hh; exact h (by simp [keysOf, hh])
      have hkt : k ∉ keysOf t := by
        intro hh; exact h (by simp [keysOf]; right; simpa [keysOf] using hh)
      have hrec := ih hkt
      simp [bump, keysOf, hak] at hrec ⊢
      exact hrec

theorem getCount_fold (ks : List String) :
    ∀ (l : List (String × Nat)) (j : String),
      getCount (ks.foldl bump l) j = getCount l j + ks.count j := by
  induction ks with
  | nil => intro l j; simp [getCount]
  | cons k ks ih =>
      intro l j
      by_cases h : k = j
      · subst h
        rw [List.foldl_cons, ih, getCount_bump_self, List.count_cons_self]
        omega
      · rw [List.foldl_cons, ih (bump l k) j,
          getCount_bump_other l k j (Ne.symm h),
          List.count_cons_of_ne (Ne.symm h)]

theorem sumCounts_fold (ks : List String) :
    ∀ l : List (String × Nat),
      sumCounts (ks.foldl bump l) = sumCounts l + ks.length := by
  induction ks with
  | nil => intro l; simp
  | cons k ks ih =>
      intro l
      rw [List.foldl_cons, ih (bump l k), sumCounts_bump, List.length_cons]
      omega

theorem keysOf_fold (ks : List String) :
    ∀ l : List (String × Nat),
      keysOf (ks.foldl bump l) =
        keysOf l ++ firstSeenKeys (ks.filter (fun j => decide (j ∉ keysOf l))) := by
  induction ks with
  | nil => intro l; simp [firstSeenKeys]
  | cons k ks ih =>
      intro l
      by_cases h : k ∈ keysOf l
      · rw [List.foldl_cons, ih, keysOf_bump_mem l k h]
        have : (List.filter (fun j => decide (j ∉ keysOf l)) (k :: ks)) =
            List.filter (fun j => decide (j ∉ keysOf l)) ks := by
          simp [List.filter_cons, h]
        rw [this]
      · rw [List.foldl_cons, ih, keysOf_bump_notMem l k h]
        have h1 : (List.filter (fun j => decide (j ∉ keysOf l)) (k :: ks)) =
            k :: List.filter (fun j => decide (j ∉ keysOf l)) ks := by
          simp [List.filter_cons, h]
        rw [h1, firstSeenKeys]
        have h2 : (List.filter (fun j => decide (j ≠ k))
              (List.filter (fun j => decide (j ∉ keysOf l)) ks)) =
            List.filter (fun j => decide (j ∉ keysOf (bump l k))) ks := by
          rw [keysOf_bump_notMem l k h, List.filter_filter]
          apply List.filter_congr
          intro a _
          by_cases ha1 : a ∈ keysOf l <;> by_cases ha2 : a = k <;>
            simp [ha1, ha2]
        rw [List.append_assoc]
        simp only [List.cons_append, List.nil_append]
        rw [h2, ← keysOf_bump_notMem l k h]

theorem mem_firstSeenKeys (ks : List String) (a : String) :
    a ∈ firstSeenKeys ks ↔ a ∈ ks := by
  induction ks using firstSeenKeys.induct with
  | case1 => simp [firstSeenKeys]
  | case2 k ks ih =>
      rw [firstSeenKeys]
      by_cases hak : a = k
      · subst hak; simp
      · simp only [List.mem_cons, hak, false_or, ih, List.mem_filter,
          decide_eq_true_eq]
        simp [hak]

theorem nodup_firstSeenKeys (ks : List String) : (firstSeenKeys ks).Nodup := by
  induction ks using firstSeenKeys.induct with
  | case1 => simp [firstSeenKeys]
  | case2 k ks ih =>
      rw [firstSeenKeys]
      refine List.nodup_cons.mpr ⟨?_, ih⟩
      intro hmem
      rw [mem_firstSeenKeys] at hmem
      simp [List.mem_filter] at hmem

theorem getCount_counterItems (ks : List String) (j : String) :
    getCount (counterItems ks) j = ks.count j := by
  rw [counterItems, getCount_fold]
  simp [getCount]

theorem sumCounts_counterItems (ks : List String) :
    sumCounts (counterItems ks) = ks.length := by
  rw [counterItems, sumCounts_fold]
  simp [sumCounts]

theorem keysOf_counterItems (ks : List String) :
    keysOf (counterItems ks) = firstSeenKeys ks := by
  rw [counterItems, keysOf_fold]
  simp [keysOf]

theorem nodup_keysOf_counterItems (ks : List String) :
    (keysOf (counterItems ks)).Nodup := by
  rw [keysOf_counterItems]
  exact nodup_firstSeenKeys ks

theorem mem_assoc_iff (l : List (String × Nat)) (hnd : (keysOf l).Nodup)
    (k : String) (c : Nat) :
    (k, c) ∈ l ↔ (k ∈ keysOf l ∧ c = getCount l k) := by
  induction l with
  | nil => simp [keysOf, getCount]
  | cons p t ih =>
      obtain ⟨a, b⟩ := p
      have hnd2 : (keysOf t).Nodup := (List.nodup_cons.mp hnd).2
      have hanotin : a ∉ keysOf t := (List.nodup_cons.mp hnd).1
      by_cases hk : k = a
      · subst hk
        constructor
        · intro hmem
          rcases List.mem_cons.mp hmem with heq | hmem2
          · have : b = c := congrArg Prod.snd heq |>.symm
            subst this
            simp [keysOf, getCount]
          · exact absurd (List.mem_map_of_mem Prod.fst hmem2) hanotin
        · intro ⟨_, hc⟩
          simp [getCount] at hc
          subst hc
          exact List.mem_cons_self _ _
      · have hne : ((k, c) = (a, b)) ↔ False := by
          constructor
          · intro heq; exact hk (congrArg Prod.fst heq)
          · intro hf; exact hf.elim
        rw [List.mem_cons, hne, false_or, ih hnd2]
        simp [keysOf, getCount, hk, Ne.symm hk]

theorem mem_counterItems (ks : List String) (k : String) (c : Nat) :
    (k, c) ∈ counterItems ks ↔ (k ∈ ks ∧ c = ks.count k) := by
  rw [mem_assoc_iff _ (nodup_keysOf_counterItems ks), keysOf_counterItems,
    mem_firstSeenKeys, getCount_counterItems]

/-! ### Lemmas: `most_common` (sortedness, permutation, stability) -/

theorem sorted_mostCommon (l : List (String × Nat)) :
    List.Sorted cntGe (mostCommon l) :=
  List.sorted_insertionSort cntGe l

theorem perm_mostCommon (l : List (String × Nat)) : (mostCommon l).Perm l :=
  List.perm_insertionSort cntGe l

theorem sumCounts_mostCommon (l : List (String × Nat)) :
    sumCounts (mostCommon l) = sumCounts l :=
  ((List.perm_insertionSort cntGe l).map Prod.snd).sum_eq

theorem mem_mostCommon (l : List (String × Nat)) (p : String × Nat) :
    p ∈ mostCommon l ↔ p ∈ l :=
  (List.perm_insertionSort cntGe l).mem_iff

theorem length_mostCommon (l : List (String × Nat)) :
    (mostCommon l).length = l.length :=
  (List.perm_insertionSort cntGe l).length_eq

theorem filter_orderedInsert_of_count (x : String × Nat)
    (l : List (String × Nat)) (c : Nat) (hx : x.2 = c) :
    (List.orderedInsert cntGe x l).filter (fun p => decide (p.2 = c)) =
      x :: l.filter (fun p => decide (p.2 = c)) := by
  induction l with
  | nil => simp [List.orderedInsert, hx]
  | cons y ys ih =>
      by_cases h : cntGe x y
      · rw [List.orderedInsert, if_pos h]
        simp [hx]
      · have hyc : y.2 ≠ c := by
          have : ¬ y.2 ≤ x.2 := h
          omega
        rw [List.orderedInsert, if_neg h]
        simp [hyc, ih]

theorem filter_orderedInsert_of_ne (x : String × Nat)
    (l : List (String × Nat)) (c : Nat) (hx : x.2 ≠ c) :
    (List.orderedInsert cntGe x l).filter (fun p => decide (p.2 = c)) =
      l.filter (fun p => decide (p.2 = c)) := by
  induction l with
  | nil => simp [List.orderedInsert, hx]
  | cons y ys ih =>
      by_cases h : cntGe x y
      · rw [List.orderedInsert, if_pos h]
        simp [hx]
      · rw [List.orderedInsert, if_neg h]
        by_cases hyc : y.2 = c <;> simp [hyc, ih]

/-- Stability of `most_common`: for each count value the equal-count items
appear in exactly their original (first-seen) relative order. -/
theorem filter_mostCommon (l : List (String × Nat)) (c : Nat) :
    (mostCommon l).filter (fun p => decide (p.2 = c)) =
      l.filter (fun p => decide (p.2 = c)) := by
  induction l with
  | nil => rfl
  | cons x xs ih =>
      rw [mostCommon, List.insertionSort]
      by_cases hx : x.2 = c
      · rw [filter_orderedInsert_of_count x _ c hx]
        rw [mostCommon] at ih
        rw [ih]
        simp [hx]
      · rw [filter_orderedInsert_of_ne x _ c hx]
        rw [mostCommon] at ih
        rw [ih]
        simp [hx]

/-! ### Lemmas: the tokenizer -/

theorem toNat_charOfNat (m : Nat) (h : m.isValidChar) :
    (Char.ofNat m).toNat = m := by
  simp [Char.ofNat, h, Char.ofNatAux, Char.toNat, UInt32.toNat,
    BitVec.toNat_ofNatLt]

theorem toLower_of_lower (c : Char) (h1 : 97 ≤ c.toNat) (h2 : c.toNat ≤ 122) :
    Char.toLower c = c := by
  unfold Char.toLower
  rw [if_neg]
  omega

theorem toNat_toLower_of_upper (c : Char) (h1 : 65 ≤ c.toNat)
    (h2 : c.toNat ≤ 90) : (Char.toLower c).toNat = c.toNat + 32 := by
  unfold Char.toLower
  rw [if_pos (by omega)]
  exact toNat_charOfNat _ (Or.inl (by omega))

/-- Lower-casing an ASCII letter yields a char in `a`..`z`. -/
theorem toLower_alpha_range (c : Char) (h : isAlphaChar c = true) :
    97 ≤ (Char.toLower c).toNat ∧ (Char.toLower c).toNat ≤ 122 := by
  rw [isAlphaChar, Bool.or_eq_true, Bool.and_eq_true, Bool.and_eq_true] at h
  simp only [decide_eq_true_eq] at h
  rcases h with ⟨h1, h2⟩ | ⟨h1, h2⟩
  · rw [toNat_toLower_of_upper c h1 h2]
    omega
  · rw [toLower_of_lower c h1 h2]
    omega

theorem mem_alphaRunsAux_alpha :
    ∀ (cs acc : List Char), (∀ c ∈ acc, isAlphaChar c = true) →
      ∀ r ∈ alphaRunsAux cs acc, ∀ c ∈ r, isAlphaChar c = true := by
  intro cs
  induction cs with
  | nil =>
      intro acc hacc r hr c hc
      rw [alphaRunsAux] at hr
      by_cases he : acc.isEmpty
      · simp [he] at hr
      · simp [he] at hr
        subst hr
        exact hacc c (List.mem_reverse.mp hc)
  | cons a as ih =>
      intro acc hacc r hr c hc
      rw [alphaRunsAux] at hr
      by_cases ha : isAlphaChar a
      · rw [if_pos ha] at hr
        refine ih (a :: acc) ?_ r hr c hc
        intro x hx
        rcases List.mem_cons.mp hx with hx | hx
        · subst hx; exact ha
        · exact hacc x hx
      · rw [if_neg ha] at hr
        by_cases he : acc.isEmpty
        · rw [if_pos he] at hr
          exact ih [] (by simp) r hr c hc
        · rw [if_neg he] at hr
          rcases List.mem_cons.mp hr with hr | hr
          · subst hr
            exact hacc c (List.mem_reverse.mp hc)
          · exact ih [] (by simp) r hr c hc

/-- Mid-run characterisation of the scanner: with a nonempty all-alphabetic
partial run in the accumulator, the next emitted run is the accumulator
followed by the maximal alphabetic prefix of the rest. -/
theorem alphaRunsAux_midrun :
    ∀ (cs acc : List Char), acc ≠ [] →
      alphaRunsAux cs acc =
        (acc.reverse ++ cs.takeWhile isAlphaChar) ::
          alphaRunsAux (cs.dropWhile isAlphaChar) [] := by
  intro cs
  induction cs with
  | nil =>
      intro acc hne
      have he : acc.isEmpty = false := by
        cases acc with
        | nil => exact absurd rfl hne
        | cons _ _ => rfl
      simp [alphaRunsAux, he]
  | cons a as ih =>
      intro acc hne
      by_cases ha : isAlphaChar a
      · rw [alphaRunsAux, if_pos ha, ih (a :: acc) (by simp),
          List.takeWhile_cons_of_pos ha, List.dropWhile_cons_of_pos ha]
        simp
      · have he : acc.isEmpty = false := by
          cases acc with
          | nil => exact absurd rfl hne
          | cons _ _ => rfl
        rw [alphaRunsAux, if_neg ha, he]
        simp only [Bool.false_eq_true, if_false]
        rw [List.takeWhile_cons_of_neg ha, List.dropWhile_cons_of_neg ha]
        have : alphaRunsAux (a :: as) [] = alphaRunsAux as [] := by
          rw [alphaRunsAux, if_neg ha]
          rfl
        rw [this]
        simp

theorem runsDecomp_prepend (c : Char) (s : List Char) (rs : List (List Char))
    (hc : isAlphaChar c = false) (h : RunsDecomp s rs) :
    RunsDecomp (c :: s) rs := by
  cases h with
  | allSep hall =>
      refine RunsDecomp.allSep ?_
      intro x hx
      rcases List.mem_cons.mp hx with hx | hx
      · subst hx; exact hc
      · exact hall x hx
  | run hlead hr hralpha hrest hrec =>
      rw [← List.cons_append]
      refine RunsDecomp.run ?_ hr hralpha hrest hrec
      intro x hx
      rcases List.mem_cons.mp hx with hx | hx
      · subst hx; exact hc
      · exact hlead x hx

theorem head?_dropWhile_not (p : Char → Bool) :
    ∀ (l : List Char) (c : Char), (l.dropWhile p).head? = some c → p c = false := by
  intro l
  induction l with
  | nil => intro c h; simp at h
  | cons a as ih =>
      intro c h
      by_cases hp : p a
      · rw [List.dropWhile_cons_of_pos hp] at h
        exact ih c h
      · rw [List.dropWhile_cons_of_neg hp] at h
        simp at h
        subst h
        exact Bool.of_not_eq_true hp

theorem runsDecomp_aux (n : Nat) :
    ∀ s : List Char, s.length ≤ n → RunsDecomp s (alphaRunsAux s []) := by
  induction n with
  | zero =>
      intro s hs
      have : s = [] := List.length_eq_zero.mp (Nat.le_zero.mp hs)
      subst this
      exact RunsDecomp.allSep (by simp)
  | succ n ih =>
      intro s hs
      cases s with
      | nil => exact RunsDecomp.allSep (by simp)
      | cons c cs =>
          by_cases hc : isAlphaChar c
          · rw [alphaRunsAux, if_pos hc,
              alphaRunsAux_midrun cs [c] (by simp)]
            have hsplit : (c :: cs) =
                [] ++ ((c :: cs.takeWhile isAlphaChar) ++
                  cs.dropWhile isAlphaChar) := by
              simp [List.takeWhile_append_dropWhile]
            rw [hsplit]
            refine RunsDecomp.run (by simp) (by simp) ?_ ?_ ?_
            · intro x hx
              rcases List.mem_cons.mp hx with hx | hx
              · subst hx; exact hc
              · exact List.mem_takeWhile_imp hx
            · intro x hx
              exact head?_dropWhile_not isAlphaChar cs x hx
            · refine ih (cs.dropWhile isAlphaChar) ?_
              have h1 : (cs.dropWhile isAlphaChar).length ≤ cs.length :=
                (List.dropWhile_sublist isAlphaChar).length_le
              have h2 : cs.length ≤ n := by
                simpa using Nat.le_of_succ_le_succ hs
              omega
          · have : alphaRunsAux (c :: cs) [] = alphaRunsAux cs [] := by
              rw [alphaRunsAux, if_neg hc]
              rfl
            rw [this]
            refine runsDecomp_prepend c cs _ (Bool.of_not_eq_true hc) ?_
            refine ih cs ?_
            simpa using Nat.le_of_succ_le_succ hs

/-- The scanner output is exactly the maximal-runs decomposition. -/
theorem runsDecomp_alphaRuns (s : String) : RunsDecomp s.data (alphaRuns s) :=
  runsDecomp_aux s.data.length s.data (Nat.le_refl _)

/-- Every token of `tokenise` has length at least 2, consists only of
lower-case ASCII letters, and is not a stop-word. -/
theorem tokenise_token_props (s : String) (t : String) (ht : t ∈ tokenise s) :
    2 ≤ t.length ∧ (∀ c ∈ t.data, 97 ≤ c.toNat ∧ c.toNat ≤ 122) ∧
      t ∉ STOP_WORDS := by
  rw [tokenise] at ht
  have h1 := List.mem_filter.mp ht
  obtain ⟨hmap, hstop⟩ := h1
  have hstop2 : t ∉ STOP_WORDS := of_decide_eq_true hstop
  obtain ⟨r, hr, hrt⟩ := List.mem_map.mp hmap
  have h2 := List.mem_filter.mp hr
  obtain ⟨hrun, hlen⟩ := h2
  have hlen2 : 2 ≤ r.length := of_decide_eq_true hlen
  have halpha : ∀ c ∈ r, isAlphaChar c = true :=
    mem_alphaRunsAux_alpha s.data [] (by simp) r hrun
  subst hrt
  refine ⟨?_, ?_, hstop2⟩
  · show 2 ≤ (String.mk (r.map Char.toLower)).length
    simpa [String.length] using hlen2
  · intro c hc
    have : c ∈ r.map Char.toLower := hc
    obtain ⟨c0, hc0, hc0l⟩ := List.mem_map.mp this
    subst hc0l
    exact toLower_alpha_range c0 (halpha c0 hc0)

/-! ### Lemmas: the document tree -/

theorem bannedFree_pruneList (t : List Node) :
    bannedFree (pruneList t) = true := by
  induction t using pruneList.induct with
  | case1 => simp [pruneList, bannedFree]
  | case2 s rest ih => simp [pruneList, bannedFree, ih]
  | case3 s rest ih => simp [pruneList, bannedFree, ih]
  | case4 nm cs rest h ih => simp [pruneList, h, ih]
  | case5 nm cs rest h ih1 ih2 => simp [pruneList, bannedFree, h, ih1, ih2]

theorem pruneList_of_bannedFree (t : List Node) (h : bannedFree t = true) :
    pruneList t = t := by
  induction t using pruneList.induct with
  | case1 => simp [pruneList]
  | case2 s rest ih =>
      rw [bannedFree] at h
      simp [pruneList, ih h]
  | case3 s rest ih =>
      rw [bannedFree] at h
      simp [pruneList, ih h]
  | case4 nm cs rest hc ih =>
      rw [bannedFree, if_pos hc] at h
      exact absurd h (by simp)
  | case5 nm cs rest hc ih1 ih2 =>
      rw [bannedFree, if_neg hc, Bool.and_eq_true] at h
      simp [pruneList, hc, ih1 h.1, ih2 h.2]

/-- Pruning-then-collecting equals collecting-while-skipping: the filtering
step applied before text collection removes exactly the non-visible
subtrees. -/
theorem strippedStrings_pruneList (b : Bool) (t : List Node) :
    strippedStrings b (pruneList t) = specCollectSkipping b t := by
  induction t using pruneList.induct with
  | case1 => simp [pruneList, strippedStrings, specCollectSkipping]
  | case2 s rest ih =>
      simp [pruneList, strippedStrings, specCollectSkipping, ih]
  | case3 s rest ih =>
      simp [pruneList, strippedStrings, specCollectSkipping, ih]
  | case4 nm cs rest h ih =>
      simp [pruneList, specCollectSkipping, h, ih]
  | case5 nm cs rest h ih1 ih2 =>
      simp [pruneList, strippedStrings, specCollectSkipping, h, ih1, ih2]

/-- Under the pre-4.9 iteration semantics (comments yielded), every comment
in the iterated forest whose text strips to nonempty contributes its
stripped text to the collection. -/
theorem comment_mem_strippedStrings (f : List Node) (s : String) :
    hasCommentWithText f s = true → pyStrip s ≠ "" →
      (StrKind.commentString, pyStrip s) ∈ strippedStrings true f := by
  induction f, s using hasCommentWithText.induct with
  | case1 s =>
      intro hmem _
      simp [hasCommentWithText] at hmem
  | case2 txt rest s ih =>
      intro hmem hne
      rw [hasCommentWithText] at hmem
      rw [strippedStrings]
      exact List.mem_append_right _ (ih hmem hne)
  | case3 c rest s ih =>
      intro hmem hne
      rw [hasCommentWithText, Bool.or_eq_true] at hmem
      rw [strippedStrings]
      rcases hmem with hc | hrest
      · have hcs : c = s := by simpa using hc
        subst hcs
        rw [if_pos ⟨rfl, hne⟩]
        exact List.mem_append_left _ (by simp)
      · exact List.mem_append_right _ (ih hrest hne)
  | case4 enm cs rest s ih1 ih2 =>
      intro hmem hne
      rw [hasCommentWithText, Bool.or_eq_true] at hmem
      rw [strippedStrings]
      rcases hmem with hcs | hrest
      · exact List.mem_append_left _ (ih1 hcs hne)
      · exact List.mem_append_right _ (ih2 hrest hne)

/-- Every value yielded by `stripped_strings` is rejected by the source's
`isinstance` filter: the yielded value is a plain `str` (result of
`.strip()`), and a plain `str` is not an instance of the subclass
`NavigableString`. -/
theorem genFilter_yieldedClass (k : StrKind) :
    genFilter (yieldedClass k) = false := by
  cases k <;> rfl

/-- The generator in `visible_text_from_soup` yields nothing: filtering any
yielded-string sequence through the `isinstance` check leaves nothing. -/
theorem filter_genFilter_nil (l : List (StrKind × String)) :
    l.filter (fun p => genFilter (yieldedClass p.1)) = [] := by
  induction l with
  | nil => rfl
  | cons p rest ih =>
      rw [List.filter_cons, genFilter_yieldedClass]
      simpa using ih

/-- `visible_text_from_soup` always returns the empty string: the
`" ".join` runs over an empty generator. -/
theorem visible_text_empty (b : Bool) (t : List Node) :
    (visible_text_from_soup b t).2 = "" := by
  show String.intercalate " "
      (((strippedStrings b (pruneList t)).filter
        (fun p => genFilter (yieldedClass p.1))).map (fun p => pyUnescape p.2)) = ""
  rw [filter_genFilter_nil]
  rfl

/-! ### The claims -/

/-- Claim C1: for every document tree and at any nesting depth, the visible
text extraction's output contains no text that occurred inside a subtree
rooted at a `script`, `style`, `noscript` or `template` element, and those
four tag names with their entire subtrees are removed in a filtering step
applied before any text is collected.  Proved in three parts: the iteration
after the decompose step sees exactly the strings of a traversal that skips
every non-visible subtree; the filtered tree contains no non-visible element
at all; and the output string itself is empty (the generator's `isinstance`
filter rejects every yielded plain-`str` value), so a fortiori it contains
no text from a non-visible subtree.  Holds for either collaborator behaviour
on comments. -/
theorem C1_nonvisible_subtrees_excluded (b : Bool) (t : List Node) :
    strippedStrings b (pruneList t) = specCollectSkipping b t ∧
    bannedFree (pruneList t) = true ∧
    (visible_text_from_soup b t).2 = "" :=
  ⟨strippedStrings_pruneList b t, bannedFree_pruneList t, visible_text_empty b t⟩

/-- Claim C2 counterexample: tag counting is not independent of the
visible-text filtering step.  After `visible_text_from_soup` has run on this
tree (decomposing it in place), the `style` element is gone and no longer
counted. -/
theorem C2_counterexample :
    tag_frequencies ((visible_text_from_soup true
        [Node.elem "div" [Node.elem "style" [Node.text "css"],
          Node.elem "p" []]]).1) ≠
      tag_frequencies
        [Node.elem "div" [Node.elem "style" [Node.text "css"],
          Node.elem "p" []]] := by
  simp only [visible_text_from_soup]
  simp [tag_frequencies, pruneList, NONVISIBLE, allElemNames]
  decide

/-- Claim C2 amended: `tag_frequencies` returns one count per distinct
lower-cased tag name covering every element of the tree it is given (the
counts sum to the number of elements, and a pair is in the result exactly
when its key is the lower-casing of some element name with its multiplicity
over all elements), and in `main` it runs on the unfiltered tree, before the
extraction step, so `script`/`style`/`noscript`/`template` elements are
included there.  It is, however, not independent of whether the filtering
step has been applied, because the filtering mutates the tree (see the
counterexample). -/
theorem C2_tag_frequencies_cover (t : List Node) :
    sumCounts (tag_frequencies t) = (allElemNames t).length ∧
    (∀ nm c, (nm, c) ∈ tag_frequencies t ↔
      (nm ∈ (allElemNames t).map strLower ∧
        c = ((allElemNames t).map strLower).count nm)) ∧
    (∀ b n, (mainCore b t n).1 = tag_frequencies t) := by
  refine ⟨?_, ?_, fun b n => rfl⟩
  · rw [tag_frequencies, sumCounts_mostCommon, sumCounts_counterItems,
      List.length_map]
  · intro nm c
    rw [tag_frequencies, mem_mostCommon, mem_counterItems]

/-- Claim C3 counterexample: `visible_text_from_soup` is not free of side
effects visible outside the call: on this tree the element list left behind
by the call differs from the input (the `script` subtree is gone), and
`tag_frequencies` gives a different answer after the call than before. -/
theorem C3_counterexample :
    allElemNames ((visible_text_from_soup true
        [Node.elem "html" [Node.elem "script" [Node.text "x"],
          Node.elem "p" [Node.text "hi"]]]).1) ≠
      allElemNames
        [Node.elem "html" [Node.elem "script" [Node.text "x"],
          Node.elem "p" [Node.text "hi"]]] ∧
    tag_frequencies ((visible_text_from_soup true
        [Node.elem "html" [Node.elem "script" [Node.text "x"],
          Node.elem "p" [Node.text "hi"]]]).1) ≠
      tag_frequencies
        [Node.elem "html" [Node.elem "script" [Node.text "x"],
          Node.elem "p" [Node.text "hi"]]] := by
  constructor
  · simp only [visible_text_from_soup]
    simp [pruneList, NONVISIBLE, allElemNames]
  · simp only [visible_text_from_soup]
    simp [tag_frequencies, pruneList, NONVISIBLE, allElemNames]
    decide

/-- Claim C3 amended: `visible_text_from_soup` does mutate the document
tree: its only side effect is that the tree left behind is exactly the
input with the non-visible subtrees decomposed, so `tag_frequencies` run
after the call sees the pruned tree; when the input contains no
`script`/`style`/`noscript`/`template` element the tree is unchanged and
`tag_frequencies` agrees before and after the call.  (In `main` the tag
counts are taken before the extraction, so the report is unaffected.) -/
theorem C3_mutation_characterised (b : Bool) (t : List Node) :
    (visible_text_from_soup b t).1 = pruneList t ∧
    tag_frequencies ((visible_text_from_soup b t).1) =
      tag_frequencies (pruneList t) ∧
    (bannedFree t = true → (visible_text_from_soup b t).1 = t ∧
      tag_frequencies ((visible_text_from_soup b t).1) = tag_frequencies t) := by
  refine ⟨rfl, rfl, fun h => ?_⟩
  have hp : pruneList t = t := pruneList_of_bannedFree t h
  constructor
  · show pruneList t = t
    exact hp
  · show tag_frequencies (pruneList t) = tag_frequencies t
    rw [hp]

/-- Witness for the amended claim C3 at a tree with no non-visible
element. -/
theorem C3_mutation_characterised_witness :
    bannedFree [Node.elem "p" [Node.text "hi"]] = true ∧
    (visible_text_from_soup true [Node.elem "p" [Node.text "hi"]]).1 =
      [Node.elem "p" [Node.text "hi"]] := by
  have h : bannedFree [Node.elem "p" [Node.text "hi"]] = true := by
    simp [bannedFree, NONVISIBLE]
  exact ⟨h, ((C3_mutation_characterised true _).2.2 h).1⟩

/-- Claim C4: the ranked list `Counter(ks).most_common()` is sorted by count
descending, and distinct keys with equal counts appear in the relative order
of their first appearance in `ks`: the counter items are keyed in
first-appearance order with the key's multiplicity as count, and for every
count value the equal-count entries of the output are exactly the equal-count
counter items in unchanged (first-seen) order. -/
theorem C4_most_common_stable_desc (ks : List String) :
    List.Sorted cntGe (mostCommon (counterItems ks)) ∧
    (∀ c, (mostCommon (counterItems ks)).filter (fun p => decide (p.2 = c)) =
      (counterItems ks).filter (fun p => decide (p.2 = c))) ∧
    keysOf (counterItems ks) = firstSeenKeys ks ∧
    (∀ k c, (k, c) ∈ mostCommon (counterItems ks) ↔
      (k ∈ ks ∧ c = ks.count k)) := by
  refine ⟨sorted_mostCommon _, fun c => filter_mostCommon _ c,
    keysOf_counterItems ks, fun k c => ?_⟩
  rw [mem_mostCommon, mem_counterItems]

/-- Claim C5: `tokenise` returns exactly the maximal runs of ASCII
alphabetic characters of length at least 2, lower-cased, in left-to-right
scan order, with stop-words dropped: the scanner output is a maximal-runs
decomposition of the input, `tokenise` is the length filter, lower-casing
map and stop-word filter over it, and consequently every emitted token has
length at least 2, consists solely of lower-case ASCII letters (hence
contains no digit or punctuation) and is not a stop-word. -/
theorem C5_tokenise_spec (s : String) :
    RunsDecomp s.data (alphaRuns s) ∧
    tokenise s =
      (((alphaRuns s).filter (fun r => decide (2 ≤ r.length))).map
          (fun r => String.mk (r.map Char.toLower))).filter
        (fun t => decide (t ∉ STOP_WORDS)) ∧
    ∀ t ∈ tokenise s, 2 ≤ t.length ∧
      (∀ c ∈ t.data, 97 ≤ c.toNat ∧ c.toNat ≤ 122) ∧ t ∉ STOP_WORDS :=
  ⟨runsDecomp_alphaRuns s, rfl, fun t ht => tokenise_token_props s t ht⟩

/-- Witness for claim C5 on a concrete string with punctuation, digits, a
stop-word and mixed case. -/
theorem C5_tokenise_spec_witness :
    "hello" ∈ tokenise "Hello, the 42 cats!" ∧
    (2 ≤ ("hello" : String).length ∧
      (∀ c ∈ ("hello" : String).data, 97 ≤ c.toNat ∧ c.toNat ≤ 122) ∧
      ("hello" : String) ∉ STOP_WORDS) :=
  ⟨by decide, (C5_tokenise_spec "Hello, the 42 cats!").2.2 "hello" (by decide)⟩

/-- Claim C6: `top_n_words` with n = 0 returns the empty list, and with n at
least the number of distinct tokens returns the whole ranked list, with one
entry per distinct token (no truncation, no padding). -/
theorem C6_top_n_words_bounds (ks : List String) (n : Int) :
    top_n_words ks 0 = [] ∧
    (((counterItems ks).length : Int) ≤ n →
      top_n_words ks n = mostCommon (counterItems ks) ∧
      (top_n_words ks n).length = (counterItems ks).length) := by
  constructor
  · rfl
  · intro h
    have hlen : (mostCommon (counterItems ks)).length ≤ n.toNat := by
      rw [length_mostCommon]
      omega
    rw [top_n_words, List.take_of_length_le hlen]
    exact ⟨rfl, length_mostCommon _⟩

/-- Witness for claim C6 with n exceeding the distinct-token count. -/
theorem C6_top_n_words_bounds_witness :
    ((counterItems ["aa", "bb", "aa"]).length : Int) ≤ 7 ∧
    top_n_words ["aa", "bb", "aa"] 7 = mostCommon (counterItems ["aa", "bb", "aa"]) :=
  ⟨by decide, ((C6_top_n_words_bounds ["aa", "bb", "aa"] 7).2 (by decide)).1⟩

/-- Claim C7 counterexample: a negative top-N is not rejected by the CLI
layer: `parse_args` accepts `--top -5` (argparse treats `-5` as a value
because no option string of this parser looks like a negative number), and
`main` hands exactly that negative value to `top_n_words`. -/
theorem C7_counterexample :
    parse_args ["http://example.com", "--top", "-5"] =
      some ⟨"http://example.com", -5⟩ ∧
    (-5 : Int) < 0 ∧
    (mainCore true [Node.elem "p" [Node.text "some words here"]] (-5)).2 =
      top_n_words (tokenise ((visible_text_from_soup true
        [Node.elem "p" [Node.text "some words here"]]).2)) (-5) :=
  ⟨by decide, by decide, rfl⟩

/-- Claim C7 amended: the CLI layer performs no sign validation on `--top`:
whatever integer `parse_args` accepts (negative values included) is passed
through `main` unchanged to `top_n_words`, which simply returns the empty
list for a negative n rather than being protected from one. -/
theorem C7_amended_no_cli_rejection :
    (∀ argv a, parse_args argv = some a →
      ∀ b t, (mainCore b t a.top).2 =
        top_n_words (tokenise ((visible_text_from_soup b t).2)) a.top) ∧
    parse_args ["http://example.com", "-t", "-7"] =
      some ⟨"http://example.com", -7⟩ ∧
    (∀ ks, top_n_words ks (-7) = []) :=
  ⟨fun _ _ _ _ _ => rfl, by decide, fun _ => rfl⟩

/-- Witness for the amended claim C7 at a concrete accepted invocation. -/
theorem C7_amended_no_cli_rejection_witness :
    parse_args ["http://x.test", "--top", "-3"] = some ⟨"http://x.test", -3⟩ ∧
    (mainCore true [] (-3 : Int)).2 =
      top_n_words (tokenise ((visible_text_from_soup true []).2)) (-3 : Int) :=
  ⟨by decide,
    C7_amended_no_cli_rejection.1 ["http://x.test", "--top", "-3"]
      ⟨"http://x.test", -3⟩ (by decide) true []⟩

/-- Claim C8 counterexample: with truncation the counts of the ranked list
do not sum to the input length: two distinct keys truncated to the top 1. -/
theorem C8_counterexample :
    sumCounts (top_n_words ["aa", "bb"] 1) ≠
      (["aa", "bb"] : List String).length := by
  decide

/-- Claim C8 amended: the sum of the counts in the ranked list equals the
length of the input key sequence whenever no truncation occurs: always for
`most_common()` with no argument (the tag-frequency path), and for
`top_n_words` whenever n is at least the number of distinct keys; a
truncating n makes the sum smaller (see the counterexample). -/
theorem C8_sum_counts_untruncated (ks : List String) (n : Int) :
    sumCounts (mostCommon (counterItems ks)) = ks.length ∧
    (((counterItems ks).length : Int) ≤ n →
      sumCounts (top_n_words ks n) = ks.length) := by
  constructor
  · rw [sumCounts_mostCommon, sumCounts_counterItems]
  · intro h
    have hlen : (mostCommon (counterItems ks)).length ≤ n.toNat := by
      rw [length_mostCommon]
      omega
    rw [top_n_words, List.take_of_length_le hlen, sumCounts_mostCommon,
      sumCounts_counterItems]

/-- Witness for the amended claim C8 with an untruncating n. -/
theorem C8_sum_counts_untruncated_witness :
    ((counterItems ["xx", "yy", "xx"]).length : Int) ≤ 9 ∧
    sumCounts (top_n_words ["xx", "yy", "xx"] 9) =
      (["xx", "yy", "xx"] : List String).length :=
  ⟨by decide, (C8_sum_counts_untruncated ["xx", "yy", "xx"] 9).2 (by decide)⟩

/-- Claim C9 counterexample: a tree that does contain a comment node — at
top level inside a visible `p` element, with text that survives stripping —
yet the comment's text is not included in the extractor's output: the
output is empty and nothing at all passes the generator's filter, under
either collaborator behaviour on comment iteration. -/
theorem C9_counterexample :
    hasCommentWithText [Node.elem "p" [Node.comment "hello comment"]]
        "hello comment" = true ∧
    (visible_text_from_soup true
        [Node.elem "p" [Node.comment "hello comment"]]).2 = "" ∧
    (visible_text_from_soup false
        [Node.elem "p" [Node.comment "hello comment"]]).2 = "" ∧
    (strippedStrings true
        (pruneList [Node.elem "p" [Node.comment "hello comment"]])).filter
      (fun p => genFilter (yieldedClass p.1)) = [] := by
  refine ⟨?_, visible_text_empty true _, visible_text_empty false _,
    filter_genFilter_nil _⟩
  simp [hasCommentWithText]

/-- Claim C9 amended: no comment text is ever included in the visible-text
output, under any bs4 version — the claim's premise about the class
hierarchy is correct (`Comment` is a `NavigableString` subclass and not a
`Tag`, so an actual `Comment` instance would pass the `isinstance` filter),
and under pre-4.9 iteration a surviving comment's stripped text is indeed
yielded by `stripped_strings`; but the yielded value is `descendant.strip()`,
a plain `str` rather than a `NavigableString` subclass instance, so the
filter rejects every yielded element and the extractor collects nothing:
its output is always the empty string. -/
theorem C9_comment_text_amended :
    genFilter PyClass.pyComment = true ∧
    (∀ (t : List Node) (s : String),
      hasCommentWithText (pruneList t) s = true → pyStrip s ≠ "" →
      (StrKind.commentString, pyStrip s) ∈ strippedStrings true (pruneList t)) ∧
    (∀ k : StrKind, genFilter (yieldedClass k) = false) ∧
    (∀ (b : Bool) (t : List Node),
      (strippedStrings b (pruneList t)).filter
          (fun p => genFilter (yieldedClass p.1)) = [] ∧
        (visible_text_from_soup b t).2 = "") :=
  ⟨rfl,
    fun t s hmem hne => comment_mem_strippedStrings (pruneList t) s hmem hne,
    genFilter_yieldedClass,
    fun b t => ⟨filter_genFilter_nil _, visible_text_empty b t⟩⟩

/-- Witness for the amended claim C9: a concrete stripped comment string is
yielded by the pre-4.9 iteration (discharging the two hypotheses), and the
filter rejects the yielded value. -/
theorem C9_comment_text_amended_witness :
    hasCommentWithText (pruneList [Node.comment " hi "]) " hi " = true ∧
    pyStrip " hi " ≠ "" ∧
    (StrKind.commentString, pyStrip " hi ") ∈
      strippedStrings true (pruneList [Node.comment " hi "]) ∧
    genFilter (yieldedClass StrKind.commentString) = false := by
  have h1 : hasCommentWithText (pruneList [Node.comment " hi "]) " hi " = true := by
    simp [hasCommentWithText, pruneList]
  have h2 : pyStrip " hi " ≠ "" := by decide
  exact ⟨h1, h2,
    C9_comment_text_amended.2.1 [Node.comment " hi "] " hi " h1 h2,
    C9_comment_text_amended.2.2.1 StrKind.commentString⟩

/-- Claim C10: `top_n_words` with a negative n does not fail and returns the
empty list, the same result as n = 0 (`heapq.nlargest` returns `[]` for any
non-positive n). -/
theorem C10_top_n_words_negative (ks : List String) (n : Int) (h : n < 0) :
    top_n_words ks n = [] ∧ top_n_words ks n = top_n_words ks 0 := by
  have hz : n.toNat = 0 := Int.toNat_of_nonpos (le_of_lt h)
  rw [top_n_words, hz]
  exact ⟨rfl, rfl⟩

/-- Witness for claim C10 at n = -4. -/
theorem C10_top_n_words_negative_witness :
    (-4 : Int) < 0 ∧ top_n_words ["aa", "zz"] (-4) = [] :=
  ⟨by decide, (C10_top_n_words_negative ["aa", "zz"] (-4) (by decide)).1⟩

end Scraper

